import Mathlib

/-!
Verification of the polymarket-data-collector repository.

The dashboard helpers (`buildUrl` in the two revisions of
`frontend/src/lib/api.ts`, `formatVolume` in the chart formatting module)
are embedded directly from the TypeScript source.  JavaScript numbers are
embedded as rationals and `Number.toFixed` as exact decimal rounding
(round half away from zero on the absolute value, per the ECMAScript
algorithm).  `URLSearchParams` is embedded as an association list with the
WHATWG `set` semantics and the `application/x-www-form-urlencoded`
serializer over UTF-8 bytes.

The collector core (RateLimiter, MarketDiscovery, HistoricalCollector,
OrderbookPoller, RealtimeStreamer) is python code of this repository that
is not shipped here (only its usage guide, deployment scripts and the
dashboard are); those components are modelled from the specification, as
marked on each definition.
-/

/-- Uppercase hexadecimal digit for a value below 16. -/
def hexDigitChar (n : Nat) : Char :=
  if n < 10 then Char.ofNat (48 + n) else Char.ofNat (55 + n)

/-- Percent-encoding of one byte, as the URL serializer emits it. -/
def percentEncodeByte (b : Nat) : String :=
  String.mk ['%', hexDigitChar (b / 16), hexDigitChar (b % 16)]

/-- Bytes kept verbatim by the `application/x-www-form-urlencoded`
serializer: ASCII alphanumerics and `*`, `-`, `.`, `_`. -/
def isFormSafeByte (b : Nat) : Bool :=
  (48 ≤ b && b ≤ 57) || (65 ≤ b && b ≤ 90) || (97 ≤ b && b ≤ 122) ||
    b == 42 || b == 45 || b == 46 || b == 95

/-- Form-urlencoded rendering of one byte. -/
def formEncodeByte (b : Nat) : String :=
  if isFormSafeByte b then String.mk [Char.ofNat b]
  else if b == 32 then "+"
  else percentEncodeByte b

/-- UTF-8 byte sequence of one character. -/
def utf8Bytes (c : Char) : List Nat :=
  let n := c.toNat
  if n < 128 then [n]
  else if n < 2048 then [192 ||| (n >>> 6), 128 ||| (n &&& 63)]
  else if n < 65536 then
    [224 ||| (n >>> 12), 128 ||| ((n >>> 6) &&& 63), 128 ||| (n &&& 63)]
  else
    [240 ||| (n >>> 18), 128 ||| ((n >>> 12) &&& 63),
      128 ||| ((n >>> 6) &&& 63), 128 ||| (n &&& 63)]

/-- Form-urlencoded percent-encoding of a string, as
`URLSearchParams.toString` applies to each name and value. -/
def formEncode (s : String) : String :=
  String.join (s.toList.map (fun c => String.join ((utf8Bytes c).map formEncodeByte)))

/-- Serialization of one name-value pair. -/
def encodePair (p : String × String) : String :=
  formEncode p.1 ++ "=" ++ formEncode p.2

/-- Serialization of a `URLSearchParams` list, pairs joined by `&`. -/
def renderQuery : List (String × String) → String
  | [] => ""
  | [p] => encodePair p
  | p :: q :: rest => encodePair p ++ "&" ++ renderQuery (q :: rest)

/-- WHATWG `URLSearchParams.set`: replace the value of the first pair
with this name and drop the other pairs with it, else append. -/
def setParam : List (String × String) → String → String → List (String × String)
  | [], k, v => [(k, v)]
  | p :: rest, k, v =>
      if p.1 = k then (k, v) :: rest.filter (fun q => q.1 ≠ k)
      else p :: setParam rest k v

/-- One iteration of the parameter loop of `buildUrl`
(`frontend/src/lib/api.ts`): an entry whose value is neither `undefined`
(here `none`) nor the empty string is `set` on the search-params list. -/
def collectStep (acc : List (String × String)) (kv : String × Option String) :
    List (String × String) :=
  match kv.2 with
  | none => acc
  | some v => if v = "" then acc else setParam acc kv.1 v

/-- The parameter loop of `buildUrl`, over `Object.entries(params)` in
order. -/
def collectParams (params : List (String × Option String)) : List (String × String) :=
  params.foldl collectStep []

/-- The string-concatenation revision of `buildUrl`
(`frontend/src/lib/api.ts`): build `API_URL + "/api/" + endpoint`, fill a
`URLSearchParams`, and append `"?" + qs` only when the serialized query
string is nonempty. -/
def buildUrl (apiUrl endpoint : String) (params : List (String × Option String)) : String :=
  let path := apiUrl ++ "/api/" ++ endpoint
  let qs := renderQuery (collectParams params)
  if qs = "" then path else path ++ "?" ++ qs

/-- The `new URL(...)` revision of `buildUrl`: the host `URL` class
parses the base and re-serializes it on `toString()`; that host behaviour
is the explicit `normalizeUrl` argument here.  `url.toString()` appends
`"?" + query` exactly when the query component was set, i.e. when the
search-params list is nonempty. -/
def buildUrl2 (normalizeUrl : String → String) (apiUrl endpoint : String)
    (params : List (String × Option String)) : String :=
  let u := normalizeUrl (apiUrl ++ "/api/" ++ endpoint)
  let sp := collectParams params
  if sp.isEmpty then u else u ++ "?" ++ renderQuery sp

/-- The parameters `buildUrl` keeps: value present and not the empty
string. -/
def keptParams (params : List (String × Option String)) : List (String × String) :=
  params.filterMap (fun kv =>
    match kv.2 with
    | none => none
    | some v => if v = "" then none else some (kv.1, v))

/-- Decimal rendering of a natural number with `f` digits after the
point (zero-padded), the final step of `Number.toFixed`. -/
def toFixedRender (f : Nat) (n : Nat) : String :=
  if f = 0 then toString n
  else
    let s0 := toString n
    let s := if s0.length < f + 1 then
        String.mk (List.replicate (f + 1 - s0.length) '0') ++ s0
      else s0
    s.take (s.length - f) ++ "." ++ s.drop (s.length - f)

/-- ECMAScript `toFixed` on a nonnegative rational: the integer `n`
with `n / 10^f` closest to `x`, ties to the larger `n`. -/
def toFixedNonneg (f : Nat) (x : ℚ) : String :=
  toFixedRender f (Int.toNat ⌊x * 10 ^ f + 1 / 2⌋)

/-- ECMAScript `Number.toFixed`: a negative argument is rendered as the
sign followed by the rendering of its absolute value. -/
def toFixed (f : Nat) (x : ℚ) : String :=
  if x < 0 then "-" ++ toFixedNonneg f (-x) else toFixedNonneg f x

/-- The dashboard `formatVolume` function, verbatim from the source:
cascaded `>=` tests choosing millions with two decimals, thousands with
zero or one decimal, else the raw value with zero decimals. -/
def formatVolume (v : ℚ) : String :=
  if 1000000 ≤ v then "$" ++ toFixed 2 (v / 1000000) ++ "M"
  else if 10000 ≤ v then "$" ++ toFixed 0 (v / 1000) ++ "K"
  else if 1000 ≤ v then "$" ++ toFixed 1 (v / 1000) ++ "K"
  else "$" ++ toFixed 0 v

/-- Modelled from the spec: trade side, `side ∈ {BUY, SELL}` (§3). -/
inductive Side where
  | buy
  | sell
deriving DecidableEq, Repr

/-- Modelled from the spec: a PricePoint row, unique on
`(market_id, timestamp)` (§3). -/
structure PricePoint where
  market_id : String
  timestamp : Nat
  price : ℚ
deriving DecidableEq, Repr

/-- Modelled from the spec: a Trade row, unique on the externally
assigned `trade_id` (§3). -/
structure Trade where
  market_id : String
  trade_id : String
  timestamp : Nat
  price : ℚ
  size : ℚ
  side : Side
  outcome : String
deriving DecidableEq, Repr

/-- Modelled from the spec: a Market row, unique on `market_id`,
descriptive fields refreshable on rediscovery (§3). -/
structure Market where
  market_id : String
  condition_id : String
  token_yes : String
  token_no : String
  question : String
  outcomes : List String
  start_date : String
  end_date : String
  discovered_at : Nat
deriving DecidableEq, Repr

/-- Modelled from the spec: the storage tables the collector writes
(markets, price_history, trades), each a list of rows in insertion
order. -/
@[ext]
structure Store where
  markets : List Market
  price_history : List PricePoint
  trades : List Trade
deriving DecidableEq, Repr

/-- The uniqueness key of a PricePoint row (§3). -/
def ppKey (p : PricePoint) : String × Nat := (p.market_id, p.timestamp)

/-- Modelled from the spec: the storage contract's idempotent upsert —
when a row with the same uniqueness key exists it is replaced in place,
otherwise the row is appended (no duplicate rows, no error). -/
def upsertBy {α κ : Type} [DecidableEq κ] (key : α → κ) (row : α) : List α → List α
  | [] => [row]
  | r :: rs => if key r = key row then row :: rs else r :: upsertBy key row rs

/-- Upsert of a whole fetched batch, row by row in fetch order. -/
def upsertAllBy {α κ : Type} [DecidableEq κ] (key : α → κ) (rows : List α) (s : List α) :
    List α :=
  rows.foldl (fun t r => upsertBy key r t) s

/-- First stored row with the given key, the read the upsert is keyed
on. -/
def findByKey {α κ : Type} [DecidableEq κ] (key : α → κ) (k : κ) (l : List α) : Option α :=
  l.find? (fun r => decide (key r = k))

/-- Modelled from the spec: what HistoricalCollector fetches for one
market over the fixed trailing window — the price-history endpoint's
`(timestamp, price)` series and the cursor-paginated trade-history
records; deterministic for an identical window. -/
structure FetchResult where
  prices : List PricePoint
  trades : List Trade

/-- Modelled from the spec: HistoricalCollector's backfill of one
market — every fetched price point and trade is written through the
idempotent upsert (§4.3). -/
def collectMarket (fetched : FetchResult) (s : Store) : Store :=
  { s with
    price_history := upsertAllBy ppKey fetched.prices s.price_history
    trades := upsertAllBy Trade.trade_id fetched.trades s.trades }

/-- Modelled from the spec: one HistoricalCollector run — backfill each
known market in turn over the identical trailing window. -/
def runBackfill (fetch : String → FetchResult) (markets : List String) (s : Store) : Store :=
  markets.foldl (fun t m => collectMarket (fetch m) t) s

/-- The empty storage target. -/
def emptyStore : Store := ⟨[], [], []⟩

/-- The §8 end-to-end scenario fetch: market `M` with 3 price points at
t = 100, 200, 300 (prices 0.40, 0.45, 0.50) and 2 trades with ids `a`
and `b`. -/
def exampleFetch : String → FetchResult := fun _ =>
  ⟨[⟨"M", 100, 2/5⟩, ⟨"M", 200, 9/20⟩, ⟨"M", 300, 1/2⟩],
   [⟨"M", "a", 100, 2/5, 10, Side.buy, "Yes"⟩, ⟨"M", "b", 200, 9/20, 5, Side.sell, "Yes"⟩]⟩

/-- Key-based deduplication with a seen-set accumulator: keep the first
hit for each key. -/
def dedupKeyAux {α κ : Type} [DecidableEq κ] (key : α → κ) (seen : List κ) :
    List α → List α
  | [] => []
  | x :: xs =>
      if key x ∈ seen then dedupKeyAux key seen xs
      else x :: dedupKeyAux key (key x :: seen) xs

/-- Modelled from the spec: MarketDiscovery deduplicates hits by
`market_id` across all terms before writing (§4.2). -/
def dedupByKey {α κ : Type} [DecidableEq κ] (key : α → κ) (l : List α) : List α :=
  dedupKeyAux key [] l

/-- Modelled from the spec: one MarketDiscovery run — per-term paginated
metadata queries, the validation-keyword filter, dedup by `market_id`
across all terms, then the upsert of each surviving hit (existing
`market_id` refreshes descriptive fields, new ones are inserted). -/
def discoverRun (searchResults : String → List Market) (validate : Market → Bool)
    (terms : List String) (store : List Market) : List Market :=
  upsertAllBy Market.market_id
    (dedupByKey Market.market_id ((terms.map (fun tm => (searchResults tm).filter validate)).flatten))
    store

/-- A concrete market row used to instantiate the discovery claims. -/
def exampleMarket : Market :=
  ⟨"mkX", "c1", "tokY", "tokN", "Will X win the CDL major", ["Yes", "No"],
    "2025-01-01", "2025-02-01", 0⟩

/-- A search function on which two different terms return the same
market: the overlapping-terms scenario. -/
def exampleSearch : String → List Market := fun _ => [exampleMarket]

/-- Modelled from the spec: the fixed per-endpoint-class quotas per
trailing 10-second window (the spec's example figures 300/500/1500/200,
§4.1); unknown class names fall back to the smallest example quota. -/
def rateLimitQuota : String → Nat
  | "metadata" => 300
  | "price_history" => 500
  | "trade_history" => 1500
  | "orderbook" => 200
  | _ => 200

/-- Modelled from the spec: a valid admitted-call trace of one endpoint
class, most recent call first.  `acquire` suspends its caller until
admission is possible, so a call admitted at time `t` sees strictly
fewer than `quota` earlier admissions inside the trailing window
`(t - w, t]`; admissions are totally ordered because all callers share
one internally synchronized limiter (§4.1, §5). -/
inductive Admits (quota w : Nat) : List Nat → Prop where
  | nil : Admits quota w []
  | cons (t : Nat) (ts : List Nat) (prev : Admits quota w ts)
      (hmono : ∀ u ∈ ts, u ≤ t)
      (hq : (ts.filter (fun u => decide (t < u + w))).length < quota) :
      Admits quota w (t :: ts)

/-- Modelled from the spec: the RateLimiter's backoff delay after the
k-th consecutive rate-limit response, `min(base·2^k, cap) + jitter`
(§4.1). -/
def backoffDelay (base cap : ℚ) (jitter : ℕ → ℚ) (k : ℕ) : ℚ :=
  min (base * 2 ^ k) cap + jitter k

/-- The limiter's backoff bookkeeping: the consecutive-failure counter
and the waits performed so far. -/
structure BackoffState where
  attempt : ℕ
  waits : List ℚ
deriving Repr

/-- Modelled from the spec: one remote response processed by the
limiter — an explicit rate-limit response waits the current backoff
delay and increments the attempt counter; a success resets the counter
to zero (delay back to base) (§4.1). -/
def backoffStep (base cap : ℚ) (jitter : ℕ → ℚ) (s : BackoffState)
    (rateLimited : Bool) : BackoffState :=
  if rateLimited then ⟨s.attempt + 1, s.waits ++ [backoffDelay base cap jitter s.attempt]⟩
  else ⟨0, s.waits⟩

/-- The limiter driven over a whole response sequence, starting fresh. -/
def backoffRun (base cap : ℚ) (jitter : ℕ → ℚ) (rs : List Bool) : BackoffState :=
  rs.foldl (backoffStep base cap jitter) ⟨0, []⟩

/-- Modelled from the spec: the orderbook side's best level — highest
price on the bid side. -/
def maxLevel : List (ℚ × ℚ) → Option (ℚ × ℚ)
  | [] => none
  | x :: xs =>
      match maxLevel xs with
      | none => some x
      | some y => if y.1 ≤ x.1 then some x else some y

/-- Modelled from the spec: the orderbook side's best level — lowest
price on the ask side. -/
def minLevel : List (ℚ × ℚ) → Option (ℚ × ℚ)
  | [] => none
  | x :: xs =>
      match minLevel xs with
      | none => some x
      | some y => if x.1 ≤ y.1 then some x else some y

/-- Modelled from the spec: an OrderbookSnapshot row (§3); absent
fields are `none`, never zero. -/
structure OrderbookSnapshot where
  market_id : String
  token_id : String
  timestamp : Nat
  best_bid_price : Option ℚ
  best_bid_size : Option ℚ
  best_ask_price : Option ℚ
  best_ask_size : Option ℚ
  spread : Option ℚ
  mid_price : Option ℚ
  bid_depth : List (ℚ × ℚ)
  ask_depth : List (ℚ × ℚ)
deriving DecidableEq, Repr

/-- Modelled from the spec: OrderbookPoller's snapshot construction
(§4.4): extract best bid/ask price and size, compute spread and mid
only when both sides are present (otherwise leave them undefined), and
keep up to `depth` levels per side. -/
def mkSnapshot (mkid tok : String) (ts depth : Nat) (bids asks : List (ℚ × ℚ)) :
    OrderbookSnapshot :=
  match maxLevel bids, minLevel asks with
  | some b, some a =>
      ⟨mkid, tok, ts, some b.1, some b.2, some a.1, some a.2,
        some (a.1 - b.1), some ((b.1 + a.1) / 2), bids.take depth, asks.take depth⟩
  | some b, none =>
      ⟨mkid, tok, ts, some b.1, some b.2, none, none, none, none,
        bids.take depth, asks.take depth⟩
  | none, some a =>
      ⟨mkid, tok, ts, none, none, some a.1, some a.2, none, none,
        bids.take depth, asks.take depth⟩
  | none, none =>
      ⟨mkid, tok, ts, none, none, none, none, none, none,
        bids.take depth, asks.take depth⟩

/-- Modelled from the spec: a RealtimeTick row (§3). -/
structure RealtimeTick where
  token_id : String
  timestamp : Nat
  bid : ℚ
  ask : ℚ
  last_price : ℚ
deriving DecidableEq, Repr

/-- The outcome of processing one unit of work (one search term, one
market in a poll pass): either a produced row or a logged failure. -/
inductive UnitResult (α : Type) where
  | ok (a : α)
  | failed
deriving DecidableEq, Repr

/-- Rows written and failures counted by one pass. -/
structure PassState (α : Type) where
  written : List α
  failures : ℕ
deriving DecidableEq, Repr

/-- Modelled from the spec: per-unit processing — a failure is counted
and skipped, a success is written; processing always continues (§7). -/
def processUnit {α : Type} (s : PassState α) (u : UnitResult α) : PassState α :=
  match u with
  | .ok a => ⟨s.written ++ [a], s.failures⟩
  | .failed => ⟨s.written, s.failures + 1⟩

/-- Modelled from the spec: a whole pass over the units of one run
(all the terms of a discovery run, all markets of a poll pass). -/
def processUnits {α : Type} (units : List (UnitResult α)) : PassState α :=
  units.foldl processUnit ⟨[], 0⟩

/-- The row produced by a unit, if any. -/
def okValue {α : Type} : UnitResult α → Option α
  | .ok a => some a
  | .failed => none

/-- The streamer's ingestion state: the connection flag, the ticks
written and the dropped-message counter. -/
structure StreamIngestState where
  connected : Bool
  ticks : List RealtimeTick
  dropped : ℕ
deriving DecidableEq, Repr

/-- Modelled from the spec: RealtimeStreamer message handling — a
parseable inbound message becomes a normalized RealtimeTick and is
written; an unparseable one is dropped and counted, never fatal and
never touching the connection (§4.5). -/
def handleMessage {μ : Type} (parse : μ → Option RealtimeTick) (s : StreamIngestState)
    (m : μ) : StreamIngestState :=
  match parse m with
  | some tk => ⟨s.connected, s.ticks ++ [tk], s.dropped⟩
  | none => ⟨s.connected, s.ticks, s.dropped + 1⟩

/-- The streamer's read loop over a batch of inbound messages. -/
def handleAll {μ : Type} (parse : μ → Option RealtimeTick) (s : StreamIngestState)
    (msgs : List μ) : StreamIngestState :=
  msgs.foldl (handleMessage parse) s

/-- Events observable by the RealtimeStreamer's reconnect machinery:
discovery adding a token, an unexpected disconnect (scheduling a
backoff wait), a reconnection attempt (sending the subscribe message),
and a successful connection (resetting the backoff). -/
inductive StreamEvent where
  | addToken (t : String)
  | drop
  | attempt
  | success
deriving DecidableEq, Repr

/-- The streamer's state: currently known tokens, the consecutive
reconnect-attempt counter, the backoff waits performed, and the
subscribe messages sent. -/
structure StreamerState where
  tokens : List String
  attempt : ℕ
  delays : List ℚ
  msgs : List (List String)
deriving DecidableEq, Repr

/-- Modelled from the spec: the reconnect backoff before the k-th
consecutive attempt, exponential from a low seed and capped (§4.5);
jitter is additive on top and not part of the monotone base. -/
def reconnectDelay (seed cap : ℚ) (k : ℕ) : ℚ := min (seed * 2 ^ k) cap

/-- Modelled from the spec: the RealtimeStreamer state machine (§4.5).
On disconnect the streamer schedules the current backoff wait and
advances the attempt counter; each reconnection attempt re-subscribes
with the token set current at that moment; a success resets the
backoff. -/
def streamerStep (seed cap : ℚ) (s : StreamerState) : StreamEvent → StreamerState
  | .addToken t =>
      if t ∈ s.tokens then s else ⟨s.tokens ++ [t], s.attempt, s.delays, s.msgs⟩
  | .drop => ⟨s.tokens, s.attempt + 1, s.delays ++ [reconnectDelay seed cap s.attempt], s.msgs⟩
  | .attempt => ⟨s.tokens, s.attempt, s.delays, s.msgs ++ [s.tokens]⟩
  | .success => ⟨s.tokens, 0, s.delays, s.msgs⟩

/-- The streamer driven over an event sequence from a fresh start. -/
def streamerRun (seed cap : ℚ) (es : List StreamEvent) : StreamerState :=
  es.foldl (streamerStep seed cap) ⟨[], 0, [], []⟩

theorem setParam_not_mem (l : List (String × String)) (k v : String)
    (h : k ∉ l.map Prod.fst) : setParam l k v = l ++ [(k, v)] := by
  induction l with
  | nil => rfl
  | cons p rest ih =>
      simp only [List.map_cons, List.mem_cons] at h
      push_neg at h
      rw [setParam, if_neg (by exact fun hc => h.1 hc.symm), ih h.2]
      rfl

theorem foldl_collectStep_eq (params : List (String × Option String)) :
    ∀ acc : List (String × String),
    (∀ kv ∈ params, kv.1 ∉ acc.map Prod.fst) →
    (params.map Prod.fst).Nodup →
    params.foldl collectStep acc = acc ++ keptParams params := by
  induction params with
  | nil => intro acc _ _; simp [keptParams]
  | cons kv rest ih =>
      intro acc hacc hnd
      simp only [List.map_cons, List.nodup_cons] at hnd
      obtain ⟨hknotin, hndrest⟩ := hnd
      rw [List.foldl_cons]
      match hkv : kv.2 with
      | none =>
          have hstep : collectStep acc kv = acc := by simp [collectStep, hkv]
          rw [hstep, ih acc (fun p hp => hacc p (List.mem_cons_of_mem _ hp)) hndrest]
          have : keptParams (kv :: rest) = keptParams rest := by
            simp [keptParams, List.filterMap_cons, hkv]
          rw [this]
      | some v =>
          by_cases hv : v = ""
          · have hstep : collectStep acc kv = acc := by simp [collectStep, hkv, hv]
            rw [hstep, ih acc (fun p hp => hacc p (List.mem_cons_of_mem _ hp)) hndrest]
            have : keptParams (kv :: rest) = keptParams rest := by
              simp [keptParams, List.filterMap_cons, hkv, hv]
            rw [this]
          · have hstep : collectStep acc kv = acc ++ [(kv.1, v)] := by
              have hnot : kv.1 ∉ acc.map Prod.fst := hacc kv (List.mem_cons_self _ _)
              simp [collectStep, hkv, hv, setParam_not_mem acc kv.1 v hnot]
            rw [hstep]
            have hacc2 : ∀ p ∈ rest, p.1 ∉ (acc ++ [(kv.1, v)]).map Prod.fst := by
              intro p hp
              simp only [List.map_append, List.mem_append, List.map_cons, List.map_nil,
                List.mem_singleton]
              rintro (hin | heq)
              · exact hacc p (List.mem_cons_of_mem _ hp) hin
              · exact hknotin (heq ▸ List.mem_map_of_mem Prod.fst hp)
            rw [ih (acc ++ [(kv.1, v)]) hacc2 hndrest]
            have : keptParams (kv :: rest) = (kv.1, v) :: keptParams rest := by
              simp [keptParams, List.filterMap_cons, hkv, hv]
            rw [this, List.append_assoc]
            rfl

theorem collectParams_eq_keptParams (params : List (String × Option String))
    (hk : (params.map Prod.fst).Nodup) : collectParams params = keptParams params := by
  have := foldl_collectStep_eq params [] (by simp) hk
  simpa [collectParams] using this

theorem renderQuery_length_pos (p : String × String) (rest : List (String × String)) :
    0 < (renderQuery (p :: rest)).length := by
  have heq : ("=" : String).length = 1 := rfl
  cases rest with
  | nil => simp [renderQuery, encodePair, String.length_append, heq]
  | cons q rest2 => simp [renderQuery, encodePair, String.length_append, heq]

theorem renderQuery_ne_empty (p : String × String) (rest : List (String × String)) :
    renderQuery (p :: rest) ≠ "" := by
  intro h
  have := renderQuery_length_pos p rest
  rw [h] at this
  simp at this

theorem keptParams_keys (params : List (String × Option String)) :
    (keptParams params).map Prod.fst =
      (params.filter (fun kv => decide (kv.2 ≠ none ∧ kv.2 ≠ some ""))).map Prod.fst := by
  induction params with
  | nil => rfl
  | cons kv rest ih =>
      match hkv : kv.2 with
      | none => simpa [keptParams, List.filterMap_cons, hkv] using ih
      | some v =>
          by_cases hv : v = ""
          · simpa [keptParams, List.filterMap_cons, hkv, hv] using ih
          · simpa [keptParams, List.filterMap_cons, hkv, hv] using ih

/-- C8: buildUrl puts a query parameter in the returned URL exactly for
the keys whose value is neither undefined nor the empty string, and when
every parameter is omitted the result is exactly `API_URL + "/api/" +
endpoint` with no question mark appended. -/
theorem buildUrl_query_exact (apiUrl endpoint : String)
    (params : List (String × Option String))
    (hk : (params.map Prod.fst).Nodup) :
    buildUrl apiUrl endpoint params =
      (if keptParams params = [] then apiUrl ++ "/api/" ++ endpoint
       else apiUrl ++ "/api/" ++ endpoint ++ "?" ++ renderQuery (keptParams params)) ∧
    (keptParams params).map Prod.fst =
      (params.filter (fun kv => decide (kv.2 ≠ none ∧ kv.2 ≠ some ""))).map Prod.fst := by
  refine ⟨?_, keptParams_keys params⟩
  unfold buildUrl
  rw [collectParams_eq_keptParams params hk]
  cases h : keptParams params with
  | nil => simp [renderQuery]
  | cons p rest =>
      have hne := renderQuery_ne_empty p rest
      simp [hne]

theorem buildUrl_query_exact_witness :
    buildUrl "http://x" "m" [("a", some "b"), ("c", none)] =
      (if keptParams [("a", some "b"), ("c", none)] = [] then "http://x" ++ "/api/" ++ "m"
       else "http://x" ++ "/api/" ++ "m" ++ "?" ++
         renderQuery (keptParams [("a", some "b"), ("c", none)])) ∧
    (keptParams [("a", some "b"), ("c", none)]).map Prod.fst =
      (([("a", some "b"), ("c", none)] : List (String × Option String)).filter
        (fun kv => decide (kv.2 ≠ none ∧ kv.2 ≠ some ""))).map Prod.fst :=
  buildUrl_query_exact "http://x" "m" [("a", some "b"), ("c", none)] (by decide)

/-- C9: the two revisions of buildUrl return the same string for every
endpoint and parameter map, provided URL normalization (the behaviour of
the host `new URL(...).toString()` round-trip) leaves the base URL
`API_URL + "/api/" + endpoint` unchanged — the claim's precondition that
`API_URL` is a nonempty absolute URL in normal form and the endpoint
contains no characters that normalization rewrites. -/
theorem buildUrl2_eq_buildUrl (normalizeUrl : String → String) (apiUrl endpoint : String)
    (params : List (String × Option String))
    (hnorm : normalizeUrl (apiUrl ++ "/api/" ++ endpoint) = apiUrl ++ "/api/" ++ endpoint) :
    buildUrl2 normalizeUrl apiUrl endpoint params = buildUrl apiUrl endpoint params := by
  unfold buildUrl2 buildUrl
  rw [hnorm]
  cases h : collectParams params with
  | nil => simp [renderQuery]
  | cons p rest =>
      have hne := renderQuery_ne_empty p rest
      simp [hne]

theorem buildUrl2_eq_buildUrl_witness :
    buildUrl2 id "http://x" "m" [("a", some "b")] = buildUrl "http://x" "m" [("a", some "b")] :=
  buildUrl2_eq_buildUrl id "http://x" "m" [("a", some "b")] rfl

/-- C10: formatVolume is total on the embedded reals and piecewise
exact: two-decimal millions for v at or above one million, whole
thousands for v in [10000, 1000000), one-decimal thousands for v in
[1000, 10000), and the plain zero-decimal rendering for everything
below, so every negative amount falls in the last branch — rendered with
the minus sign after the dollar sign and never abbreviated. -/
theorem formatVolume_piecewise (v : ℚ) :
    (1000000 ≤ v → formatVolume v = "$" ++ toFixed 2 (v / 1000000) ++ "M") ∧
    (10000 ≤ v ∧ v < 1000000 → formatVolume v = "$" ++ toFixed 0 (v / 1000) ++ "K") ∧
    (1000 ≤ v ∧ v < 10000 → formatVolume v = "$" ++ toFixed 1 (v / 1000) ++ "K") ∧
    (v < 1000 → formatVolume v = "$" ++ toFixed 0 v) ∧
    (v < 0 → formatVolume v = "$" ++ ("-" ++ toFixedNonneg 0 (-v))) := by
  unfold formatVolume
  refine ⟨fun h1 => ?_, fun h2 => ?_, fun h3 => ?_, fun h4 => ?_, fun h5 => ?_⟩
  · rw [if_pos h1]
  · rw [if_neg (by linarith [h2.2]), if_pos h2.1]
  · rw [if_neg (by linarith [h3.2]), if_neg (by linarith [h3.2]), if_pos h3.1]
  · rw [if_neg (by linarith), if_neg (by linarith), if_neg (by linarith)]
  · rw [if_neg (by linarith), if_neg (by linarith), if_neg (by linarith)]
    unfold toFixed
    rw [if_pos h5]

theorem formatVolume_piecewise_witness :
    formatVolume (-5 : ℚ) = "$" ++ ("-" ++ toFixedNonneg 0 (-(-5 : ℚ))) :=
  (formatVolume_piecewise (-5)).2.2.2.2 (by norm_num)

theorem findByKey_upsertBy_self {α κ : Type} [DecidableEq κ] (key : α → κ) (r : α)
    (l : List α) : findByKey key (key r) (upsertBy key r l) = some r := by
  induction l with
  | nil => simp [upsertBy, findByKey, List.find?]
  | cons x xs ih =>
      by_cases h : key x = key r
      · simp [upsertBy, h, findByKey, List.find?]
      · simpa [upsertBy, h, findByKey, List.find?] using ih

theorem findByKey_upsertBy_other {α κ : Type} [DecidableEq κ] (key : α → κ) (r : α)
    (k : κ) (l : List α) (h : key r ≠ k) :
    findByKey key k (upsertBy key r l) = findByKey key k l := by
  induction l with
  | nil => simp [upsertBy, findByKey, List.find?, h]
  | cons x xs ih =>
      by_cases hx : key x = key r
      · have hxk : ¬ key x = k := by rw [hx]; exact h
        simp [upsertBy, hx, findByKey, List.find?, h, hxk]
      · by_cases hk : key x = k
        · have hkr : ¬ k = key r := fun hc => hx (hk.trans hc)
          simp [upsertBy, hx, findByKey, List.find?, hk, hkr]
        · simpa [upsertBy, hx, findByKey, List.find?, hk] using ih

theorem upsertBy_of_find_self {α κ : Type} [DecidableEq κ] (key : α → κ) (r : α)
    (l : List α) (h : findByKey key (key r) l = some r) : upsertBy key r l = l := by
  induction l with
  | nil => simp [findByKey, List.find?] at h
  | cons x xs ih =>
      by_cases hx : key x = key r
      · have : x = r := by
          simpa [findByKey, List.find?, hx] using h
        simp [upsertBy, hx, this]
      · have hrest : findByKey key (key r) xs = some r := by
          simpa [findByKey, List.find?, hx] using h
        simp [upsertBy, hx, ih hrest]

theorem findByKey_upsertAllBy_not_mem {α κ : Type} [DecidableEq κ] (key : α → κ)
    (k : κ) (rows : List α) (h : k ∉ rows.map key) :
    ∀ s, findByKey key k (upsertAllBy key rows s) = findByKey key k s := by
  induction rows with
  | nil => intro s; rfl
  | cons x xs ih =>
      intro s
      simp only [List.map_cons, List.mem_cons] at h
      push_neg at h
      show findByKey key k (upsertAllBy key xs (upsertBy key x s)) = _
      rw [ih h.2, findByKey_upsertBy_other key x k s (fun hc => h.1 hc.symm)]

theorem findByKey_upsertAllBy_self {α κ : Type} [DecidableEq κ] (key : α → κ)
    (rows : List α) (r : α) (hnd : (rows.map key).Nodup) (hr : r ∈ rows) :
    ∀ s, findByKey key (key r) (upsertAllBy key rows s) = some r := by
  induction rows with
  | nil => cases hr
  | cons x xs ih =>
      intro s
      simp only [List.map_cons, List.nodup_cons] at hnd
      rcases List.mem_cons.mp hr with heq | hmem
      · subst heq
        show findByKey key (key r) (upsertAllBy key xs (upsertBy key r s)) = some r
        rw [findByKey_upsertAllBy_not_mem key (key r) xs hnd.1,
          findByKey_upsertBy_self]
      · exact ih hnd.2 hmem (upsertBy key x s)

theorem upsertAllBy_of_find_all {α κ : Type} [DecidableEq κ] (key : α → κ)
    (rows : List α) (t : List α)
    (h : ∀ r ∈ rows, findByKey key (key r) t = some r) :
    upsertAllBy key rows t = t := by
  induction rows with
  | nil => rfl
  | cons x xs ih =>
      show upsertAllBy key xs (upsertBy key x t) = t
      rw [upsertBy_of_find_self key x t (h x (List.mem_cons_self _ _))]
      exact ih (fun r hr => h r (List.mem_cons_of_mem _ hr))

theorem upsertAllBy_idem {α κ : Type} [DecidableEq κ] (key : α → κ)
    (rows : List α) (s : List α) (hnd : (rows.map key).Nodup) :
    upsertAllBy key rows (upsertAllBy key rows s) = upsertAllBy key rows s :=
  upsertAllBy_of_find_all key rows (upsertAllBy key rows s)
    (fun r hr => findByKey_upsertAllBy_self key rows r hnd hr s)

theorem upsertAllBy_append {α κ : Type} [DecidableEq κ] (key : α → κ)
    (rows1 rows2 : List α) (s : List α) :
    upsertAllBy key (rows1 ++ rows2) s = upsertAllBy key rows2 (upsertAllBy key rows1 s) :=
  List.foldl_append _ _ _ _

theorem runBackfill_eq (fetch : String → FetchResult) (ms : List String) :
    ∀ s : Store, runBackfill fetch ms s =
      { markets := s.markets
        price_history :=
          upsertAllBy ppKey ((ms.map fun m => (fetch m).prices).flatten) s.price_history
        trades :=
          upsertAllBy Trade.trade_id ((ms.map fun m => (fetch m).trades).flatten) s.trades } := by
  induction ms with
  | nil => intro s; rfl
  | cons m ms ih =>
      intro s
      show runBackfill fetch ms (collectMarket (fetch m) s) = _
      rw [ih]
      simp [collectMarket, upsertAllBy_append]

/-- C1: running HistoricalCollector twice over an identical trailing
window leaves the stored PricePoint and Trade rows (hence their counts)
unchanged on the second run, given the §3 uniqueness of the fetched
rows' keys. -/
theorem historicalCollector_idempotent (fetch : String → FetchResult)
    (markets : List String) (s : Store)
    (hp : (((markets.map fun m => (fetch m).prices).flatten).map ppKey).Nodup)
    (ht : (((markets.map fun m => (fetch m).trades).flatten).map Trade.trade_id).Nodup) :
    runBackfill fetch markets (runBackfill fetch markets s) = runBackfill fetch markets s := by
  rw [runBackfill_eq fetch markets s, runBackfill_eq]
  simp only [Store.mk.injEq]
  exact ⟨trivial, upsertAllBy_idem ppKey _ _ hp, upsertAllBy_idem Trade.trade_id _ _ ht⟩

theorem historicalCollector_idempotent_witness :
    runBackfill exampleFetch ["M"] (runBackfill exampleFetch ["M"] emptyStore) =
      runBackfill exampleFetch ["M"] emptyStore ∧
    (runBackfill exampleFetch ["M"] emptyStore).price_history.length = 3 ∧
    (runBackfill exampleFetch ["M"] emptyStore).trades.length = 2 :=
  ⟨historicalCollector_idempotent exampleFetch ["M"] emptyStore (by decide) (by decide),
    by decide, by decide⟩

theorem dedupKeyAux_keys_not_seen {α κ : Type} [DecidableEq κ] (key : α → κ) :
    ∀ (l : List α) (seen : List κ) (k : κ),
      k ∈ (dedupKeyAux key seen l).map key → k ∉ seen := by
  intro l
  induction l with
  | nil => intro seen k hk; simp [dedupKeyAux] at hk
  | cons x xs ih =>
      intro seen k hk
      by_cases hx : key x ∈ seen
      · exact ih seen k (by simpa [dedupKeyAux, hx] using hk)
      · simp only [dedupKeyAux, if_neg hx, List.map_cons, List.mem_cons] at hk
        rcases hk with heq | hmem
        · exact heq ▸ hx
        · have := ih (key x :: seen) k hmem
          exact fun hc => this (List.mem_cons_of_mem _ hc)

theorem dedupKeyAux_keys_nodup {α κ : Type} [DecidableEq κ] (key : α → κ) :
    ∀ (l : List α) (seen : List κ), ((dedupKeyAux key seen l).map key).Nodup := by
  intro l
  induction l with
  | nil => intro seen; simp [dedupKeyAux]
  | cons x xs ih =>
      intro seen
      by_cases hx : key x ∈ seen
      · simpa [dedupKeyAux, hx] using ih seen
      · simp only [dedupKeyAux, if_neg hx, List.map_cons, List.nodup_cons]
        refine ⟨fun hmem => ?_, ih (key x :: seen)⟩
        exact dedupKeyAux_keys_not_seen key xs (key x :: seen) (key x) hmem
          (List.mem_cons_self _ _)

theorem dedupKeyAux_keys_mem {α κ : Type} [DecidableEq κ] (key : α → κ) :
    ∀ (l : List α) (seen : List κ) (k : κ),
      k ∈ l.map key → k ∉ seen → k ∈ (dedupKeyAux key seen l).map key := by
  intro l
  induction l with
  | nil => intro seen k hk _; simp at hk
  | cons x xs ih =>
      intro seen k hk hns
      simp only [List.map_cons, List.mem_cons] at hk
      rcases hk with heq | hmem
      · by_cases hx : key x ∈ seen
        · exact absurd (heq ▸ hx) hns
        · simp [dedupKeyAux, hx, heq]
      · by_cases hx : key x ∈ seen
        · simpa [dedupKeyAux, hx] using ih seen k hmem hns
        · by_cases hkx : k = key x
          · simp [dedupKeyAux, hx, hkx]
          · have : k ∈ (dedupKeyAux key (key x :: seen) xs).map key :=
              ih (key x :: seen) k hmem (by simp [hkx, hns])
            simp only [dedupKeyAux, if_neg hx, List.map_cons, List.mem_cons]
            exact Or.inr this

theorem mem_keys_upsertBy_self {α κ : Type} [DecidableEq κ] (key : α → κ) (r : α)
    (l : List α) : key r ∈ (upsertBy key r l).map key := by
  induction l with
  | nil => simp [upsertBy]
  | cons x xs ih =>
      by_cases hx : key x = key r
      · simp [upsertBy, hx]
      · simp only [upsertBy, if_neg hx, List.map_cons, List.mem_cons]
        exact Or.inr ih

theorem mem_keys_upsertBy_of_mem {α κ : Type} [DecidableEq κ] (key : α → κ) (r : α)
    (l : List α) (k : κ) (hk : k ∈ l.map key) : k ∈ (upsertBy key r l).map key := by
  induction l with
  | nil => simp at hk
  | cons x xs ih =>
      simp only [List.map_cons, List.mem_cons] at hk
      by_cases hx : key x = key r
      · simp only [upsertBy, if_pos hx, List.map_cons, List.mem_cons]
        rcases hk with heq | hmem
        · exact Or.inl (heq.trans hx)
        · exact Or.inr hmem
      · simp only [upsertBy, if_neg hx, List.map_cons, List.mem_cons]
        rcases hk with heq | hmem
        · exact Or.inl heq
        · exact Or.inr (ih hmem)

theorem mem_keys_of_upsertBy {α κ : Type} [DecidableEq κ] (key : α → κ) (r : α)
    (l : List α) (k : κ) (hk : k ∈ (upsertBy key r l).map key) :
    k = key r ∨ k ∈ l.map key := by
  induction l with
  | nil => simpa [upsertBy] using hk
  | cons x xs ih =>
      by_cases hx : key x = key r
      · simp only [upsertBy, if_pos hx, List.map_cons, List.mem_cons] at hk
        rcases hk with heq | hmem
        · exact Or.inl heq
        · exact Or.inr (by simp [List.mem_cons, hmem])
      · simp only [upsertBy, if_neg hx, List.map_cons, List.mem_cons] at hk
        rcases hk with heq | hmem
        · exact Or.inr (by simp [heq])
        · rcases ih hmem with h1 | h2
          · exact Or.inl h1
          · exact Or.inr (by simp [List.mem_cons, h2])

theorem nodup_keys_upsertBy {α κ : Type} [DecidableEq κ] (key : α → κ) (r : α)
    (l : List α) (h : (l.map key).Nodup) : ((upsertBy key r l).map key).Nodup := by
  induction l with
  | nil => simp [upsertBy]
  | cons x xs ih =>
      simp only [List.map_cons, List.nodup_cons] at h
      by_cases hx : key x = key r
      · simp only [upsertBy, if_pos hx, List.map_cons, List.nodup_cons]
        exact ⟨fun hc => h.1 (hx ▸ hc), h.2⟩
      · simp only [upsertBy, if_neg hx, List.map_cons, List.nodup_cons]
        refine ⟨fun hc => ?_, ih h.2⟩
        rcases mem_keys_of_upsertBy key r xs (key x) hc with h1 | h2
        · exact hx h1
        · exact h.1 h2

theorem nodup_keys_upsertAllBy {α κ : Type} [DecidableEq κ] (key : α → κ)
    (rows : List α) : ∀ s : List α, (s.map key).Nodup →
      ((upsertAllBy key rows s).map key).Nodup := by
  induction rows with
  | nil => intro s h; exact h
  | cons x xs ih =>
      intro s h
      exact ih (upsertBy key x s) (nodup_keys_upsertBy key x s h)

theorem mem_keys_upsertAllBy_of_store {α κ : Type} [DecidableEq κ] (key : α → κ)
    (rows : List α) : ∀ (s : List α) (k : κ), k ∈ s.map key →
      k ∈ (upsertAllBy key rows s).map key := by
  induction rows with
  | nil => intro s k h; exact h
  | cons x xs ih =>
      intro s k h
      exact ih (upsertBy key x s) k (mem_keys_upsertBy_of_mem key x s k h)

theorem mem_keys_upsertAllBy_of_rows {α κ : Type} [DecidableEq κ] (key : α → κ)
    (rows : List α) : ∀ (s : List α) (k : κ), k ∈ rows.map key →
      k ∈ (upsertAllBy key rows s).map key := by
  induction rows with
  | nil => intro s k h; simp at h
  | cons x xs ih =>
      intro s k h
      simp only [List.map_cons, List.mem_cons] at h
      rcases h with heq | hmem
      · exact mem_keys_upsertAllBy_of_store key xs (upsertBy key x s) k
          (heq ▸ mem_keys_upsertBy_self key x s)
      · exact ih (upsertBy key x s) k hmem

theorem length_filter_key_eq_one {α κ : Type} [DecidableEq κ] (key : α → κ)
    (l : List α) (k : κ) (hnd : (l.map key).Nodup) (hk : k ∈ l.map key) :
    (l.filter (fun r => decide (key r = k))).length = 1 := by
  induction l with
  | nil => simp at hk
  | cons x xs ih =>
      simp only [List.map_cons, List.nodup_cons] at hnd
      by_cases hx : key x = k
      · have hnone : xs.filter (fun r => decide (key r = k)) = [] := by
          refine List.filter_eq_nil_iff.mpr (fun r hr => ?_)
          simp only [decide_eq_true_eq]
          intro hc
          exact hnd.1 (hx ▸ hc ▸ List.mem_map_of_mem key hr)
        simp [List.filter_cons, hx, hnone]
      · have hmem : k ∈ xs.map key := by
          simp only [List.map_cons, List.mem_cons] at hk
          rcases hk with heq | h2
          · exact absurd heq.symm hx
          · exact h2
        simpa [List.filter_cons, hx] using ih hnd.2 hmem

/-- C5: a discovery run in which several overlapping search terms match
the same market_id stores exactly one Market row for it: hits are
deduplicated by market_id across all terms, and upserting an
already-known market_id replaces the row instead of inserting a second
one, so the stored market_id column stays duplicate-free. -/
theorem marketDiscovery_dedup (searchResults : String → List Market)
    (validate : Market → Bool) (terms : List String) (store : List Market)
    (hs : (store.map Market.market_id).Nodup) :
    ((discoverRun searchResults validate terms store).map Market.market_id).Nodup ∧
    ∀ m, m ∈ ((terms.map fun tm => (searchResults tm).filter validate).flatten).map
        Market.market_id →
      ((discoverRun searchResults validate terms store).filter
        (fun r => decide (r.market_id = m))).length = 1 := by
  constructor
  · exact nodup_keys_upsertAllBy Market.market_id _ store hs
  · intro m hm
    have h1 : m ∈ (dedupByKey Market.market_id
        ((terms.map fun tm => (searchResults tm).filter validate).flatten)).map
        Market.market_id :=
      dedupKeyAux_keys_mem Market.market_id _ [] m hm (by simp)
    have h2 : m ∈ (discoverRun searchResults validate terms store).map Market.market_id :=
      mem_keys_upsertAllBy_of_rows Market.market_id _ store m h1
    exact length_filter_key_eq_one Market.market_id _ m
      (nodup_keys_upsertAllBy Market.market_id _ store hs) h2

theorem marketDiscovery_dedup_witness :
    ((discoverRun exampleSearch (fun _ => true) ["cdl", "call of duty"] []).map
      Market.market_id).Nodup ∧
    ((discoverRun exampleSearch (fun _ => true) ["cdl", "call of duty"] []).filter
      (fun r => decide (r.market_id = "mkX"))).length = 1 :=
  ⟨(marketDiscovery_dedup exampleSearch (fun _ => true) ["cdl", "call of duty"] []
      (by decide)).1,
   (marketDiscovery_dedup exampleSearch (fun _ => true) ["cdl", "call of duty"] []
      (by decide)).2 "mkX" (by decide)⟩

theorem length_filter_mono {α : Type} (l : List α) (p q : α → Bool)
    (h : ∀ x ∈ l, p x = true → q x = true) :
    (l.filter p).length ≤ (l.filter q).length := by
  induction l with
  | nil => simp
  | cons x xs ih =>
      have ihxs := ih (fun y hy => h y (List.mem_cons_of_mem _ hy))
      by_cases hp : p x = true
      · rw [List.filter_cons_of_pos hp, List.filter_cons_of_pos (h x (List.mem_cons_self _ _) hp)]
        simpa using ihxs
      · rw [List.filter_cons_of_neg (by simpa using hp)]
        by_cases hq : q x = true
        · rw [List.filter_cons_of_pos hq]
          exact le_trans ihxs (by simp)
        · rw [List.filter_cons_of_neg (by simpa using hq)]
          exact ihxs

theorem admits_window_bound (quota w : Nat) (ts : List Nat) (h : Admits quota w ts) :
    ∀ a : Nat, (ts.filter (fun u => decide (a < u ∧ u ≤ a + w))).length ≤ quota := by
  induction h with
  | nil => intro a; simp
  | cons t ts prev hmono hq ih =>
      intro a
      by_cases hin : a < t ∧ t ≤ a + w
      · rw [List.filter_cons_of_pos (by simpa using hin)]
        have hsub : (ts.filter (fun u => decide (a < u ∧ u ≤ a + w))).length ≤
            (ts.filter (fun u => decide (t < u + w))).length := by
          refine length_filter_mono ts _ _ (fun u hu hpu => ?_)
          simp only [decide_eq_true_eq] at hpu ⊢
          calc t ≤ a + w := hin.2
            _ < u + w := by omega
        have : (ts.filter (fun u => decide (a < u ∧ u ≤ a + w))).length < quota :=
          lt_of_le_of_lt hsub hq
        simpa using this
      · rw [List.filter_cons_of_neg (by simpa using hin)]
        exact ih a

/-- C2: for every named endpoint class and every trailing 10-second
window, the number of calls admitted by RateLimiter.acquire within that
window is at most the class's fixed quota; admissions are serialized by
the limiter's internal synchronization, so any interleaving of
concurrent callers yields such a trace, and acquire only admits when
the bound stays satisfiable. -/
theorem rateLimiter_quota (c : String) (ts : List Nat)
    (h : Admits (rateLimitQuota c) 10 ts) (a : Nat) :
    (ts.filter (fun u => decide (a < u ∧ u ≤ a + 10))).length ≤ rateLimitQuota c :=
  admits_window_bound (rateLimitQuota c) 10 ts h a

theorem rateLimiter_quota_witness :
    (([12, 9, 3] : List Nat).filter (fun u => decide (2 < u ∧ u ≤ 12))).length ≤
      rateLimitQuota "orderbook" :=
  rateLimiter_quota "orderbook" [12, 9, 3]
    (Admits.cons 12 [9, 3]
      (Admits.cons 9 [3]
        (Admits.cons 3 [] Admits.nil (by simp) (by decide))
        (by decide) (by decide))
      (by decide) (by decide)) 2

theorem backoffRun_replicate (base cap : ℚ) (jitter : ℕ → ℚ) :
    ∀ (n a : ℕ) (ws : List ℚ),
      (List.replicate n true).foldl (backoffStep base cap jitter) ⟨a, ws⟩ =
        ⟨a + n, ws ++ (List.range n).map (fun i => backoffDelay base cap jitter (a + i))⟩ := by
  intro n
  induction n with
  | zero => intro a ws; simp
  | succ n ih =>
      intro a ws
      rw [List.replicate_succ, List.foldl_cons]
      have hstep : backoffStep base cap jitter ⟨a, ws⟩ true =
          ⟨a + 1, ws ++ [backoffDelay base cap jitter a]⟩ := by simp [backoffStep]
      rw [hstep, ih]
      simp only [BackoffState.mk.injEq]
      constructor
      · omega
      · rw [List.range_succ_eq_map, List.map_cons, List.map_map, List.append_assoc,
          List.singleton_append]
        have h1 : backoffDelay base cap jitter a = backoffDelay base cap jitter (a + 0) := by
          rw [Nat.add_zero]
        have h2 : List.map (fun i => backoffDelay base cap jitter (a + 1 + i)) (List.range n) =
            List.map ((fun i => backoffDelay base cap jitter (a + i)) ∘ Nat.succ)
              (List.range n) := by
          congr 1
          funext i
          simp only [Function.comp_apply]
          congr 1
          omega
        rw [← h1, ← h2]

/-- C6: under consecutive explicit rate-limit responses the limiter's
k-th delay is exactly `min(base·2^k, cap) + jitter k`; every individual
wait is bounded by `cap` plus the jitter bound; against an endpoint
that always rate-limits, the delay base grows to the cap after finitely
many attempts (so there is no unbounded wait); and the next success
resets the attempt counter so the next delay is back to base plus
jitter. -/
theorem rateLimiter_backoff (base cap : ℚ) (jitter : ℕ → ℚ) (jmax : ℚ)
    (hbase : 0 < base) (hbc : base ≤ cap) (hj : ∀ k, 0 ≤ jitter k ∧ jitter k ≤ jmax) :
    (∀ n : ℕ, (backoffRun base cap jitter (List.replicate n true)).waits =
        (List.range n).map (backoffDelay base cap jitter)) ∧
    (∀ k, backoffDelay base cap jitter k ≤ cap + jmax) ∧
    (∃ K, ∀ k, K ≤ k → backoffDelay base cap jitter k = cap + jitter k) ∧
    (∀ rs : List Bool,
      (backoffStep base cap jitter (backoffRun base cap jitter rs) false).attempt = 0) ∧
    backoffDelay base cap jitter 0 = base + jitter 0 := by
  refine ⟨?_, ?_, ?_, ?_, ?_⟩
  · intro n
    have h := backoffRun_replicate base cap jitter n 0 []
    rw [backoffRun, h]
    simp
  · intro k
    exact add_le_add (min_le_right _ _) (hj k).2
  · obtain ⟨K, hK⟩ := pow_unbounded_of_one_lt (cap / base) (by norm_num : (1:ℚ) < 2)
    refine ⟨K, fun k hk => ?_⟩
    have h2 : (2:ℚ) ^ K ≤ 2 ^ k := pow_le_pow_right₀ (by norm_num) hk
    have hcb : cap < base * 2 ^ K := by
      rw [div_lt_iff₀ hbase] at hK
      linarith [hK]
    have h3 : base * 2 ^ K ≤ base * 2 ^ k := mul_le_mul_of_nonneg_left h2 hbase.le
    unfold backoffDelay
    rw [min_eq_right (by linarith)]
  · intro rs
    simp [backoffStep]
  · unfold backoffDelay
    rw [pow_zero, mul_one, min_eq_left hbc]

theorem rateLimiter_backoff_witness :
    (backoffRun 1 30 (fun _ => 0) (List.replicate 6 true)).waits =
      (List.range 6).map (backoffDelay 1 30 (fun _ => 0)) :=
  (rateLimiter_backoff 1 30 (fun _ => 0) 0 (by norm_num) (by norm_num)
    (fun k => ⟨le_refl 0, le_refl 0⟩)).1 6

/-- C3: in every snapshot built by OrderbookPoller with both a best bid
and a best ask present, the stored spread is exactly best_ask −
best_bid and the stored mid_price exactly (best_bid + best_ask)/2
(exact rationals embed the claim's floating tolerance), and for an
uncrossed book the spread is nonnegative; when either side is absent,
spread and mid_price are left undefined, never zero. -/
theorem orderbook_spread_mid (mkid tok : String) (ts depth : Nat)
    (bids asks : List (ℚ × ℚ)) :
    (∀ b a, (mkSnapshot mkid tok ts depth bids asks).best_bid_price = some b →
        (mkSnapshot mkid tok ts depth bids asks).best_ask_price = some a →
        (mkSnapshot mkid tok ts depth bids asks).spread = some (a - b) ∧
        (mkSnapshot mkid tok ts depth bids asks).mid_price = some ((b + a) / 2) ∧
        (b ≤ a → ∀ sp, (mkSnapshot mkid tok ts depth bids asks).spread = some sp →
          0 ≤ sp)) ∧
    ((mkSnapshot mkid tok ts depth bids asks).best_bid_price = none ∨
        (mkSnapshot mkid tok ts depth bids asks).best_ask_price = none →
      (mkSnapshot mkid tok ts depth bids asks).spread = none ∧
      (mkSnapshot mkid tok ts depth bids asks).mid_price = none) := by
  rcases hb : maxLevel bids with _ | b0 <;> rcases ha : minLevel asks with _ | a0
  · have hsnap : mkSnapshot mkid tok ts depth bids asks =
        ⟨mkid, tok, ts, none, none, none, none, none, none,
          bids.take depth, asks.take depth⟩ := by
      unfold mkSnapshot
      rw [hb, ha]
    rw [hsnap]
    exact ⟨fun b a hbp hap => Option.noConfusion hbp, fun _ => ⟨rfl, rfl⟩⟩
  · have hsnap : mkSnapshot mkid tok ts depth bids asks =
        ⟨mkid, tok, ts, none, none, some a0.1, some a0.2, none, none,
          bids.take depth, asks.take depth⟩ := by
      unfold mkSnapshot
      rw [hb, ha]
    rw [hsnap]
    exact ⟨fun b a hbp hap => Option.noConfusion hbp, fun _ => ⟨rfl, rfl⟩⟩
  · have hsnap : mkSnapshot mkid tok ts depth bids asks =
        ⟨mkid, tok, ts, some b0.1, some b0.2, none, none, none, none,
          bids.take depth, asks.take depth⟩ := by
      unfold mkSnapshot
      rw [hb, ha]
    rw [hsnap]
    exact ⟨fun b a hbp hap => Option.noConfusion hap, fun _ => ⟨rfl, rfl⟩⟩
  · have hsnap : mkSnapshot mkid tok ts depth bids asks =
        ⟨mkid, tok, ts, some b0.1, some b0.2, some a0.1, some a0.2,
          some (a0.1 - b0.1), some ((b0.1 + a0.1) / 2),
          bids.take depth, asks.take depth⟩ := by
      unfold mkSnapshot
      rw [hb, ha]
    rw [hsnap]
    refine ⟨fun b a hbp hap => ?_, fun hnone => ?_⟩
    · have hb2 : b0.1 = b := Option.some.inj hbp
      have ha2 : a0.1 = a := Option.some.inj hap
      subst hb2
      subst ha2
      refine ⟨rfl, rfl, fun hba sp hsp => ?_⟩
      have hsp2 : b0.1 - b0.1 ≤ sp := by
        rw [← Option.some.inj hsp]
        linarith
      linarith
    · rcases hnone with hc | hc <;> exact Option.noConfusion hc

theorem orderbook_spread_mid_witness :
    (mkSnapshot "M" "T" 1000 5 [(0, 100)] [(1, 50)]).spread = some ((1 : ℚ) - 0) ∧
      (mkSnapshot "M" "T" 1000 5 [(0, 100)] [(1, 50)]).mid_price =
        some (((0 : ℚ) + 1) / 2) ∧
      ((0 : ℚ) ≤ 1 → ∀ sp,
        (mkSnapshot "M" "T" 1000 5 [(0, 100)] [(1, 50)]).spread = some sp → 0 ≤ sp) :=
  (orderbook_spread_mid "M" "T" 1000 5 [(0, 100)] [(1, 50)]).1 0 1
    (by decide) (by decide)

theorem processUnits_foldl_eq {α : Type} (units : List (UnitResult α)) :
    ∀ s : PassState α, units.foldl processUnit s =
      ⟨s.written ++ units.filterMap okValue,
        s.failures + units.countP (fun u => (okValue u).isNone)⟩ := by
  induction units with
  | nil => intro s; simp
  | cons u us ih =>
      intro s
      rw [List.foldl_cons, ih]
      cases u with
      | ok a =>
          simp [processUnit, okValue, List.countP_cons]
      | failed =>
          simp [processUnit, okValue, List.countP_cons]
          omega

theorem handleAll_foldl_eq {μ : Type} (parse : μ → Option RealtimeTick)
    (msgs : List μ) : ∀ s : StreamIngestState, handleAll parse s msgs =
      ⟨s.connected, s.ticks ++ msgs.filterMap parse,
        s.dropped + msgs.countP (fun m => (parse m).isNone)⟩ := by
  induction msgs with
  | nil => intro s; simp [handleAll]
  | cons m ms ih =>
      intro s
      rw [handleAll, List.foldl_cons]
      rw [show List.foldl (handleMessage parse) (handleMessage parse s m) ms =
        handleAll parse (handleMessage parse s m) ms from rfl, ih]
      cases hp : parse m with
      | some tk =>
          simp [handleMessage, hp, List.countP_cons]
      | none =>
          simp [handleMessage, hp, List.countP_cons]
          omega

/-- C7: the failure of one unit (one search term, one market in a poll
pass, one inbound stream message) never aborts the remaining units: a
pass writes exactly the rows of the successful units and counts the
failures, whatever their interleaving, and an unparseable stream
message only bumps the dropped counter — the tick log and the
connection state are untouched, so it never causes a reconnect. -/
theorem failure_isolation {α μ : Type} (units : List (UnitResult α))
    (parse : μ → Option RealtimeTick) (msgs : List μ) (s0 : StreamIngestState) :
    (processUnits units).written = units.filterMap okValue ∧
    (processUnits units).failures = units.countP (fun u => (okValue u).isNone) ∧
    (handleAll parse s0 msgs).ticks = s0.ticks ++ msgs.filterMap parse ∧
    (handleAll parse s0 msgs).connected = s0.connected ∧
    (handleAll parse s0 msgs).dropped =
      s0.dropped + msgs.countP (fun m => (parse m).isNone) := by
  have h1 := processUnits_foldl_eq units (⟨[], 0⟩ : PassState α)
  have h2 := handleAll_foldl_eq parse msgs s0
  refine ⟨?_, ?_, ?_, ?_, ?_⟩
  · rw [processUnits, h1]
    simp
  · rw [processUnits, h1]
    simp
  · rw [h2]
  · rw [h2]
  · rw [h2]

theorem reconnectDelay_mono (seed cap : ℚ) (hseed : 0 ≤ seed) (k : ℕ) :
    reconnectDelay seed cap k ≤ reconnectDelay seed cap (k + 1) :=
  min_le_min
    (mul_le_mul_of_nonneg_left (pow_le_pow_right₀ (by norm_num) (Nat.le_succ k)) hseed)
    (le_refl cap)

theorem streamerStep_addToken_mem (seed cap : ℚ) (s : StreamerState) (u t : String)
    (h : t ∈ s.tokens) : t ∈ (streamerStep seed cap s (StreamEvent.addToken u)).tokens := by
  by_cases hu : u ∈ s.tokens
  · simpa [streamerStep, hu] using h
  · simp only [streamerStep, if_neg hu]
    exact List.mem_append_left _ h

theorem tokens_mem_run (seed cap : ℚ) (es : List StreamEvent) :
    ∀ (s : StreamerState) (t : String), t ∈ s.tokens →
      t ∈ (es.foldl (streamerStep seed cap) s).tokens := by
  induction es with
  | nil => intro s t h; exact h
  | cons e es ih =>
      intro s t h
      rw [List.foldl_cons]
      refine ih _ t ?_
      cases e with
      | addToken u => exact streamerStep_addToken_mem seed cap s u t h
      | drop => exact h
      | attempt => exact h
      | success => exact h

theorem addToken_mem_run (seed cap : ℚ) (es : List StreamEvent) :
    ∀ (s : StreamerState) (t : String), StreamEvent.addToken t ∈ es →
      t ∈ (es.foldl (streamerStep seed cap) s).tokens := by
  induction es with
  | nil => intro s t h; cases h
  | cons e es ih =>
      intro s t h
      rw [List.foldl_cons]
      rcases List.mem_cons.mp h with heq | hmem
      · subst heq
        refine tokens_mem_run seed cap es _ t ?_
        by_cases ht : t ∈ s.tokens
        · simp [streamerStep, ht]
        · simp only [streamerStep, if_neg ht]
          exact List.mem_append_right _ (List.mem_singleton.mpr rfl)
      · exact ih _ t hmem

theorem delays_chain_run (seed cap : ℚ) (hseed : 0 ≤ seed) (es : List StreamEvent) :
    ∀ s : StreamerState, StreamEvent.success ∉ es →
      List.Chain' (· ≤ ·) s.delays →
      (∀ d ∈ s.delays, d ≤ cap) →
      (∀ d ∈ s.delays.getLast?, d ≤ reconnectDelay seed cap s.attempt) →
      List.Chain' (· ≤ ·) ((es.foldl (streamerStep seed cap) s).delays) ∧
      ∀ d ∈ (es.foldl (streamerStep seed cap) s).delays, d ≤ cap := by
  induction es with
  | nil => intro s _ h1 h2 _; exact ⟨h1, h2⟩
  | cons e es ih =>
      intro s hns h1 h2 h3
      have hns2 : StreamEvent.success ∉ es := fun hc => hns (List.mem_cons_of_mem _ hc)
      rw [List.foldl_cons]
      cases e with
      | addToken u =>
          have hst : (streamerStep seed cap s (StreamEvent.addToken u)).delays = s.delays ∧
              (streamerStep seed cap s (StreamEvent.addToken u)).attempt = s.attempt := by
            by_cases hu : u ∈ s.tokens <;> simp [streamerStep, hu]
          refine ih _ hns2 ?_ ?_ ?_ <;> rw [hst.1]
          · exact h1
          · exact h2
          · rw [hst.2]
            exact h3
      | drop =>
          refine ih _ hns2 ?_ ?_ ?_
          · refine List.Chain'.append h1 (List.chain'_singleton _) ?_
            intro x hx y hy
            rw [List.head?_cons, Option.mem_some_iff] at hy
            subst hy
            exact h3 x hx
          · intro d hd
            rcases List.mem_append.mp hd with hin | hnew
            · exact h2 d hin
            · rw [List.mem_singleton.mp hnew]
              exact min_le_right _ _
          · intro d hd
            simp only [streamerStep] at hd ⊢
            rw [List.getLast?_concat, Option.mem_some_iff] at hd
            subst hd
            exact reconnectDelay_mono seed cap hseed s.attempt
      | attempt =>
          exact ih _ hns2 h1 h2 h3
      | success =>
          exact absurd (List.mem_cons_self _ _) hns

/-- C4: across consecutive unexpected disconnects with no intervening
success the scheduled reconnect delays are non-decreasing and each is
at most the fixed cap; every token added by discovery at any time,
including during the outage, is in the streamer's current token set;
and the subscribe message sent on a reconnection attempt is exactly the
token set known at that moment. -/
theorem streamer_reconnect (seed cap : ℚ) (hseed : 0 ≤ seed) (es : List StreamEvent) :
    (StreamEvent.success ∉ es →
      List.Chain' (· ≤ ·) (streamerRun seed cap es).delays ∧
      ∀ d ∈ (streamerRun seed cap es).delays, d ≤ cap) ∧
    (∀ t, StreamEvent.addToken t ∈ es → t ∈ (streamerRun seed cap es).tokens) ∧
    (streamerRun seed cap (es ++ [StreamEvent.attempt])).msgs =
      (streamerRun seed cap es).msgs ++ [(streamerRun seed cap es).tokens] := by
  refine ⟨fun hns => ?_, fun t ht => ?_, ?_⟩
  · exact delays_chain_run seed cap hseed es ⟨[], 0, [], []⟩ hns (by simp) (by simp)
      (by simp)
  · exact addToken_mem_run seed cap es ⟨[], 0, [], []⟩ t ht
  · rw [streamerRun, streamerRun, List.foldl_append]
    rfl

theorem streamer_reconnect_witness :
    (List.Chain' (· ≤ ·) (streamerRun 1 30 [StreamEvent.addToken "A", StreamEvent.drop,
        StreamEvent.addToken "B", StreamEvent.drop]).delays ∧
      ∀ d ∈ (streamerRun 1 30 [StreamEvent.addToken "A", StreamEvent.drop,
        StreamEvent.addToken "B", StreamEvent.drop]).delays, d ≤ 30) ∧
    "B" ∈ (streamerRun 1 30 [StreamEvent.addToken "A", StreamEvent.drop,
        StreamEvent.addToken "B", StreamEvent.drop]).tokens ∧
    (streamerRun 1 30 ([StreamEvent.addToken "A", StreamEvent.drop,
        StreamEvent.addToken "B", StreamEvent.drop] ++ [StreamEvent.attempt])).msgs =
      (streamerRun 1 30 [StreamEvent.addToken "A", StreamEvent.drop,
        StreamEvent.addToken "B", StreamEvent.drop]).msgs ++
        [(streamerRun 1 30 [StreamEvent.addToken "A", StreamEvent.drop,
          StreamEvent.addToken "B", StreamEvent.drop]).tokens] :=
  ⟨(streamer_reconnect 1 30 (by norm_num) [StreamEvent.addToken "A", StreamEvent.drop,
      StreamEvent.addToken "B", StreamEvent.drop]).1 (by decide),
   (streamer_reconnect 1 30 (by norm_num) [StreamEvent.addToken "A", StreamEvent.drop,
      StreamEvent.addToken "B", StreamEvent.drop]).2.1 "B" (by decide),
   (streamer_reconnect 1 30 (by norm_num) [StreamEvent.addToken "A", StreamEvent.drop,
      StreamEvent.addToken "B", StreamEvent.drop]).2.2⟩
